import Mathlib

/-! Shallow embedding of the parameter-sanitization pipeline of the
h5p-profiler personality quiz (`src/scripts`, class `PersonalityQuiz`,
methods `sanitizeParameters`, `filterAnswers`, `sanitizeOptionPersonalities`,
`sanitizePersonalityOption`, `isPersonalityNameValid`).

JavaScript strings are modelled as lists of characters (`Str`); the
JavaScript string primitives used by the source (`split`, `join`, `trim`,
`toLowerCase`, the regular expression test `/=-?\d+$/`) are modelled by
executable functions on `Str`.  Fields that may be `undefined`/`null`
(or, for `answer.personality`, of non-string type) are modelled as
`Option Str`, with `none` standing for the nullish / non-string case. -/

namespace PersonalityQuiz

/-- JavaScript strings, modelled as lists of characters. -/
abbrev Str := List Char

/-- JavaScript `String.prototype.split` with a single-character separator.
`split` always returns at least one segment; splitting the empty string
yields `[[]]`, matching JavaScript's `''.split(c) === ['']`. -/
def jsSplit (c : Char) : List Char → List (List Char)
  | [] => [[]]
  | x :: xs =>
    match jsSplit c xs with
    | [] => [[]]
    | h :: t => if x = c then [] :: h :: t else (x :: h) :: t

/-- JavaScript `Array.prototype.join` with a single-character separator. -/
def jsJoin (c : Char) : List (List Char) → List Char
  | [] => []
  | [x] => x
  | x :: y :: t => x ++ c :: jsJoin c (y :: t)

/-- Remove trailing whitespace (the right half of JavaScript `trim`). -/
def dropTrailWs : Str → Str
  | [] => []
  | x :: xs =>
    let r := dropTrailWs xs
    if r.isEmpty then (if x.isWhitespace then [] else [x]) else x :: r

/-- JavaScript `String.prototype.trim`: strip leading and trailing
whitespace. -/
def jsTrim (s : Str) : Str := dropTrailWs (s.dropWhile Char.isWhitespace)

/-- JavaScript `String.prototype.toLowerCase` (on the basic-latin letters
that the quiz's author data uses). -/
def jsToLower (s : Str) : Str := s.map Char.toLower

/-- The test `value.match(/=-?\d+$/)` of `sanitizePersonalityOption`:
the string ends in `=`, optionally followed by `-`, followed by at least
one digit running to the end. -/
def endsEqInt (s : Str) : Bool :=
  !(s.reverse.takeWhile Char.isDigit).isEmpty &&
    ((s.reverse.dropWhile Char.isDigit).headD ' ' = '=' ||
      ((s.reverse.dropWhile Char.isDigit).headD ' ' = '-' &&
        (s.reverse.dropWhile Char.isDigit).tail.headD ' ' = '='))

/-- A signed decimal integer literal: optional `-`, then one or more
digits. -/
def isSignedInt (s : Str) : Bool :=
  if s.headD ' ' = '-' then !s.tail.isEmpty && s.tail.all Char.isDigit
  else !s.isEmpty && s.all Char.isDigit

/-- An author-entered personality record.  `name = none` models a missing
(`undefined`/`null`) name; `payload` stands for the remaining authored
fields (image, description), which sanitization carries along untouched. -/
structure RawPersonality where
  name : Option Str
  payload : Nat
deriving DecidableEq

/-- A sanitized personality: the trimmed display name plus the carried
payload. -/
structure Personality where
  name : Str
  payload : Nat
deriving DecidableEq

/-- An author-entered answer option.  `text = none` models a nullish text;
`personality = none` models a `personality` field that is not a string. -/
structure RawAnswer where
  text : Option Str
  personality : Option Str
deriving DecidableEq

/-- An answer option after `filterAnswers`: the personality string has been
sanitized, the text is still as authored. -/
structure MidAnswer where
  text : Option Str
  personality : Str
deriving DecidableEq

/-- A fully sanitized answer option. -/
structure Answer where
  text : Str
  personality : Str
deriving DecidableEq

/-- An author-entered question (only the `answers` field takes part in
sanitization). -/
structure RawQuestion where
  answers : List RawAnswer
deriving DecidableEq

/-- A sanitized question. -/
structure Question where
  answers : List Answer
deriving DecidableEq

/-- One step of the `reduce` over `personalitiesGroup.personalities` in
`sanitizeParameters`: skip a missing or empty name, trim the name, drop
the record when an accumulated record already carries the same (trimmed,
case-sensitive) name, otherwise append it. -/
def personalityStep (results : List Personality) (personality : RawPersonality) :
    List Personality :=
  match personality.name with
  | none => results
  | some n =>
    if n.isEmpty then results
    else if results.any (fun result => result.name == jsTrim n) then results
    else results ++ [⟨jsTrim n, personality.payload⟩]

/-- The personalities pass of `sanitizeParameters` (the `reduce` with an
empty initial accumulator). -/
def sanitizePersonalities (raw : List RawPersonality) : List Personality :=
  raw.foldl personalityStep []

/-- Method `isPersonalityNameValid`: some sanitized personality's
lower-cased name equals the given value. -/
def isPersonalityNameValid (personalities : List Personality) (value : Str) :
    Bool :=
  personalities.any (fun personality => jsToLower personality.name == value)

/-- The name/score extraction of `sanitizePersonalityOption`: when the
regular expression `/=-?\d+$/` matches, split on `=`, pop the last segment
as the score and rejoin the rest as the name; otherwise the whole value is
the name and the score is `1`. -/
def parseNameScore (value : Str) : Str × Str :=
  if endsEqInt value then
    (jsJoin '=' (jsSplit '=' value).dropLast, (jsSplit '=' value).getLastD [])
  else
    (value, ['1'])

/-- Method `sanitizePersonalityOption`: parse the token, trim and
lower-case the name, return `none` when the name is not a valid
personality name, else the canonical token `name=score`. -/
def sanitizePersonalityOption (personalities : List Personality) (value : Str) :
    Option Str :=
  if isPersonalityNameValid personalities (jsToLower (jsTrim (parseNameScore value).1)) then
    some (jsToLower (jsTrim (parseNameScore value).1) ++ '=' :: (parseNameScore value).2)
  else
    none

/-- Method `sanitizeOptionPersonalities`: a non-string field yields the
empty string; a string is split on commas, each token sanitized, invalid
tokens dropped, and the rest rejoined with commas. -/
def sanitizeOptionPersonalities (personalities : List Personality)
    (value : Option Str) : Str :=
  match value with
  | none => []
  | some s =>
    jsJoin ','
      (((jsSplit ',' s).map (sanitizePersonalityOption personalities)).filterMap id)

/-- The invisible placeholder `'ㅤ'` used for missing answer text. -/
def placeholderText : Str := ['ㅤ']

/-- Method `filterAnswers`: sanitize each answer's personality string, then
keep exactly the answers whose sanitized string is non-empty. -/
def filterAnswers (personalities : List Personality) (answers : List RawAnswer) :
    List MidAnswer :=
  ((answers.map (fun answer =>
    MidAnswer.mk answer.text
      (sanitizeOptionPersonalities personalities answer.personality))).filter
    (fun answer => answer.personality != []))

/-- The questions pass of `sanitizeParameters`: filter each question's
answers, default missing answer text to the placeholder, then keep exactly
the questions with at least one surviving answer. -/
def sanitizeQuestions (personalities : List Personality)
    (questions : List RawQuestion) : List Question :=
  ((questions.map (fun question =>
    Question.mk ((filterAnswers personalities question.answers).map
      (fun option =>
        Answer.mk (option.text.getD placeholderText) option.personality)))).filter
    (fun question => question.answers != []))

/-- The authored parameters that take part in sanitization. -/
structure Params where
  personalities : List RawPersonality
  questions : List RawQuestion
deriving DecidableEq

/-- The sanitized parameters. -/
structure SanitizedParams where
  personalities : List Personality
  questions : List Question
deriving DecidableEq

/-- Method `sanitizeParameters`: first the personalities pass, then the
questions pass against the sanitized personalities. -/
def sanitizeParameters (params : Params) : SanitizedParams :=
  let personalities := sanitizePersonalities params.personalities
  ⟨personalities, sanitizeQuestions personalities params.questions⟩

/-- The author-entered shape of a whitespace-only (but non-empty) name:
the falsy check of the source does not catch it, while trimming turns it
into the empty string. -/
def wsOnlyName (q : RawPersonality) : Bool :=
  match q.name with
  | none => false
  | some n => !n.isEmpty && n.all Char.isWhitespace

/-- The personality pass as the specification words it: iterate the input
in the given order, skip entries with missing or empty name, trim
whitespace from the name, drop an entry when a personality with the same
trimmed name (case-sensitive comparison) already exists in the accumulated
result, otherwise append it with the trimmed (not lower-cased) name. -/
def sanitizePersonalitiesSpecGo :
    List RawPersonality → List Personality → List Personality
  | [], acc => acc
  | p :: rest, acc =>
    match p.name with
    | none => sanitizePersonalitiesSpecGo rest acc
    | some n =>
      if n = [] then sanitizePersonalitiesSpecGo rest acc
      else if jsTrim n ∈ acc.map Personality.name then
        sanitizePersonalitiesSpecGo rest acc
      else sanitizePersonalitiesSpecGo rest (acc ++ [⟨jsTrim n, p.payload⟩])

/-- The personality pass of the specification, run from the empty
accumulated result. -/
def sanitizePersonalitiesSpec (raw : List RawPersonality) : List Personality :=
  sanitizePersonalitiesSpecGo raw []

/-- The characters of the name `brave`. -/
def braveChars : Str := ['b', 'r', 'a', 'v', 'e']

/-- The characters of the name `Brave`. -/
def braveUpper : Str := ['B', 'r', 'a', 'v', 'e']

/-- The characters of the token `brave=2`. -/
def braveTwoTok : Str := ['b', 'r', 'a', 'v', 'e', '=', '2']

/-- The characters of the token `brave=1`. -/
def braveOneTok : Str := ['b', 'r', 'a', 'v', 'e', '=', '1']

/-- The characters of the token `unknown=3`. -/
def unknownThreeTok : Str := ['u', 'n', 'k', 'n', 'o', 'w', 'n', '=', '3']

/-- A sanitized personality list holding the single personality `brave`. -/
def bravePersonalities : List Personality := [⟨braveChars, 0⟩]

/-! Lemmas about characters. -/

theorem char_toNat_inj {c d : Char} (h : c.toNat = d.toNat) : c = d :=
  Char.ext (UInt32.ext h)

theorem isWhitespace_iff_toNat (c : Char) :
    c.isWhitespace = true ↔
      (c.toNat = 32 ∨ c.toNat = 9 ∨ c.toNat = 13 ∨ c.toNat = 10) := by
  unfold Char.isWhitespace
  simp only [Bool.or_eq_true, decide_eq_true_eq]
  constructor
  · rintro (((h | h) | h) | h) <;> subst h <;> decide
  · rintro (h | h | h | h)
    · exact Or.inl (Or.inl (Or.inl (char_toNat_inj (by rw [h]; rfl))))
    · exact Or.inl (Or.inl (Or.inr (char_toNat_inj (by rw [h]; rfl))))
    · exact Or.inl (Or.inr (char_toNat_inj (by rw [h]; rfl)))
    · exact Or.inr (char_toNat_inj (by rw [h]; rfl))

theorem toNat_ofNat_valid (n : Nat) (h : n.isValidChar) :
    (Char.ofNat n).toNat = n := by
  simp [Char.ofNat, h, Char.ofNatAux, Char.toNat, UInt32.toNat,
    BitVec.toNat_ofNatLt]

theorem toLower_toNat (c : Char) :
    (Char.toLower c).toNat =
      if 65 ≤ c.toNat ∧ c.toNat ≤ 90 then c.toNat + 32 else c.toNat := by
  unfold Char.toLower
  by_cases h : 65 ≤ c.toNat ∧ c.toNat ≤ 90
  · have hv : (c.toNat + 32).isValidChar := Or.inl (by omega)
    rw [if_pos h, if_pos h]
    exact toNat_ofNat_valid _ hv
  · rw [if_neg h, if_neg h]

theorem toLower_eq_self (c : Char) (h : ¬(65 ≤ c.toNat ∧ c.toNat ≤ 90)) :
    Char.toLower c = c := by
  unfold Char.toLower
  rw [if_neg h]

theorem toLower_eq_target {c t : Char} (h : Char.toLower c = t)
    (ht : t.toNat < 97 ∨ 122 < t.toNat) : c = t := by
  have hn := congrArg Char.toNat h
  rw [toLower_toNat] at hn
  by_cases hr : 65 ≤ c.toNat ∧ c.toNat ≤ 90
  · rw [if_pos hr] at hn
    exact absurd hn (by omega)
  · rw [if_neg hr] at hn
    exact char_toNat_inj hn

theorem isWhitespace_toLower (c : Char) :
    (Char.toLower c).isWhitespace = c.isWhitespace := by
  by_cases hr : 65 ≤ c.toNat ∧ c.toNat ≤ 90
  · have h1 : (Char.toLower c).isWhitespace = false := by
      rw [← Bool.not_eq_true, isWhitespace_iff_toNat, toLower_toNat, if_pos hr]
      omega
    have h2 : c.isWhitespace = false := by
      rw [← Bool.not_eq_true, isWhitespace_iff_toNat]
      omega
    rw [h1, h2]
  · rw [toLower_eq_self c hr]

theorem toLower_toLower (c : Char) :
    Char.toLower (Char.toLower c) = Char.toLower c := by
  by_cases hr : 65 ≤ c.toNat ∧ c.toNat ≤ 90
  · apply toLower_eq_self
    rw [toLower_toNat, if_pos hr]
    omega
  · rw [toLower_eq_self c hr, toLower_eq_self c hr]

theorem ne_eqSign_of_isDigit {c : Char} (h : c.isDigit = true) : c ≠ '=' := by
  intro heq
  rw [heq] at h
  exact absurd h (by decide)

theorem ne_comma_of_isDigit {c : Char} (h : c.isDigit = true) : c ≠ ',' := by
  intro heq
  rw [heq] at h
  exact absurd h (by decide)

theorem toLower_ne_comma {c : Char} (h : c ≠ ',') : Char.toLower c ≠ ',' := by
  intro heq
  exact h (toLower_eq_target heq (Or.inl (by decide)))

theorem toLower_ne_eqSign {c : Char} (h : c ≠ '=') : Char.toLower c ≠ '=' := by
  intro heq
  exact h (toLower_eq_target heq (Or.inl (by decide)))

/-! Lemmas about `jsSplit` and `jsJoin`. -/

theorem jsSplit_cons_exists (c : Char) (l : List Char) :
    ∃ h t, jsSplit c l = h :: t := by
  induction l with
  | nil => exact ⟨[], [], rfl⟩
  | cons x xs ih =>
    obtain ⟨h, t, hht⟩ := ih
    simp only [jsSplit, hht]
    by_cases hx : x = c
    · exact ⟨[], h :: t, by rw [if_pos hx]⟩
    · exact ⟨x :: h, t, by rw [if_neg hx]⟩

theorem jsJoin_cons_append (c : Char) (x : Char) (h : List Char)
    (t : List (List Char)) :
    jsJoin c ((x :: h) :: t) = x :: jsJoin c (h :: t) := by
  cases t <;> rfl

theorem jsJoin_jsSplit (c : Char) (l : List Char) :
    jsJoin c (jsSplit c l) = l := by
  induction l with
  | nil => rfl
  | cons x xs ih =>
    obtain ⟨h, t, hht⟩ := jsSplit_cons_exists c xs
    rw [hht] at ih
    show jsJoin c (jsSplit c (x :: xs)) = x :: xs
    simp only [jsSplit, hht]
    by_cases hx : x = c
    · rw [if_pos hx]
      show [] ++ c :: jsJoin c (h :: t) = x :: xs
      rw [ih, hx]
      rfl
    · rw [if_neg hx, jsJoin_cons_append, ih]

theorem jsSplit_append_cons (c : Char) (a b : List Char) :
    jsSplit c (a ++ c :: b) = jsSplit c a ++ jsSplit c b := by
  induction a with
  | nil =>
    obtain ⟨h, t, hht⟩ := jsSplit_cons_exists c b
    show jsSplit c (c :: b) = [[]] ++ jsSplit c b
    simp only [jsSplit, hht, if_pos rfl]
    rfl
  | cons x a' ih =>
    obtain ⟨h, t, hht⟩ := jsSplit_cons_exists c (a' ++ c :: b)
    obtain ⟨h', t', hht'⟩ := jsSplit_cons_exists c a'
    rw [hht, hht'] at ih
    rw [List.cons_append] at ih ⊢
    simp only [jsSplit, hht, hht']
    by_cases hx : x = c
    · rw [if_pos hx, if_pos hx, ih]
      rfl
    · rw [if_neg hx, if_neg hx]
      injection ih with ih1 ih2
      rw [ih1, ih2]
      rfl

theorem jsSplit_eq_single (c : Char) (l : List Char) (h : c ∉ l) :
    jsSplit c l = [l] := by
  induction l with
  | nil => rfl
  | cons x xs ih =>
    have hx : x ≠ c := fun hxc => h (hxc ▸ List.mem_cons_self x xs)
    have hxs : c ∉ xs := fun hc => h (List.mem_cons_of_mem x hc)
    simp only [jsSplit, ih hxs]
    rw [if_neg hx]

theorem jsSplit_jsJoin (c : Char) (ts : List (List Char)) (hne : ts ≠ [])
    (hc : ∀ t ∈ ts, c ∉ t) : jsSplit c (jsJoin c ts) = ts := by
  induction ts with
  | nil => exact absurd rfl hne
  | cons t ts' ih =>
    cases ts' with
    | nil =>
      show jsSplit c (jsJoin c [t]) = [t]
      exact jsSplit_eq_single c t (hc t (List.mem_cons_self t []))
    | cons u ts'' =>
      show jsSplit c (t ++ c :: jsJoin c (u :: ts'')) = t :: u :: ts''
      rw [jsSplit_append_cons,
        jsSplit_eq_single c t (hc t (List.mem_cons_self ..)),
        ih (by simp) (fun x hx => hc x (List.mem_cons_of_mem t hx))]
      rfl

theorem jsSplit_concat (c : Char) (a b : List Char) (hb : c ∉ b) :
    jsSplit c (a ++ c :: b) = jsSplit c a ++ [b] := by
  rw [jsSplit_append_cons, jsSplit_eq_single c b hb]

theorem not_mem_of_mem_jsSplit (c : Char) (l : List Char) :
    ∀ t ∈ jsSplit c l, c ∉ t := by
  induction l with
  | nil =>
    intro t ht
    have : t = [] := by simpa [jsSplit] using ht
    subst this
    simp
  | cons x xs ih =>
    obtain ⟨h, t0, hht⟩ := jsSplit_cons_exists c xs
    intro t ht
    simp only [jsSplit, hht] at ht
    by_cases hx : x = c
    · rw [if_pos hx] at ht
      rcases List.mem_cons.mp ht with rfl | ht'
      · simp
      · exact ih t (hht ▸ ht')
    · rw [if_neg hx] at ht
      rcases List.mem_cons.mp ht with rfl | ht'
      · intro hmem
        rcases List.mem_cons.mp hmem with rfl | hmem'
        · exact hx rfl
        · exact ih h (hht ▸ List.mem_cons_self ..) hmem'
      · exact ih t (hht ▸ List.mem_cons_of_mem h ht')

theorem mem_of_mem_jsSplit (c : Char) (l : List Char) :
    ∀ t ∈ jsSplit c l, ∀ x ∈ t, x ∈ l := by
  induction l with
  | nil =>
    intro t ht
    have : t = [] := by simpa [jsSplit] using ht
    subst this
    simp
  | cons y xs ih =>
    obtain ⟨h, t0, hht⟩ := jsSplit_cons_exists c xs
    intro t ht x hx
    simp only [jsSplit, hht] at ht
    by_cases hy : y = c
    · rw [if_pos hy] at ht
      rcases List.mem_cons.mp ht with rfl | ht'
      · exact absurd hx (List.not_mem_nil x)
      · exact List.mem_cons_of_mem y (ih t (hht ▸ ht') x hx)
    · rw [if_neg hy] at ht
      rcases List.mem_cons.mp ht with rfl | ht'
      · rcases List.mem_cons.mp hx with rfl | hx'
        · exact List.mem_cons_self ..
        · exact List.mem_cons_of_mem y
            (ih h (hht ▸ List.mem_cons_self ..) x hx')
      · exact List.mem_cons_of_mem y (ih t (hht ▸ List.mem_cons_of_mem h ht') x hx)

theorem mem_jsJoin (c : Char) (ts : List (List Char)) :
    ∀ x ∈ jsJoin c ts, x = c ∨ ∃ t ∈ ts, x ∈ t := by
  induction ts with
  | nil =>
    intro x hx
    exact absurd hx (List.not_mem_nil x)
  | cons t ts' ih =>
    cases ts' with
    | nil =>
      intro x hx
      exact Or.inr ⟨t, List.mem_cons_self .., hx⟩
    | cons u ts'' =>
      intro x hx
      rcases List.mem_append.mp hx with h1 | h2
      · exact Or.inr ⟨t, List.mem_cons_self .., h1⟩
      · rcases List.mem_cons.mp h2 with rfl | h3
        · exact Or.inl rfl
        · rcases ih x h3 with h4 | ⟨t', ht', hxt'⟩
          · exact Or.inl h4
          · exact Or.inr ⟨t', List.mem_cons_of_mem t ht', hxt'⟩

/-! Lemmas about trimming and lower-casing. -/

theorem dropTrailWs_sublist (l : Str) : ∀ x ∈ dropTrailWs l, x ∈ l := by
  induction l with
  | nil => intro x hx; exact absurd hx (List.not_mem_nil x)
  | cons y ys ih =>
    intro x hx
    simp only [dropTrailWs] at hx
    by_cases he : (dropTrailWs ys).isEmpty
    · rw [if_pos he] at hx
      by_cases hw : y.isWhitespace
      · rw [if_pos hw] at hx
        exact absurd hx (List.not_mem_nil x)
      · rw [if_neg hw] at hx
        rcases List.mem_cons.mp hx with rfl | h'
        · exact List.mem_cons_self ..
        · exact absurd h' (List.not_mem_nil x)
    · rw [if_neg he] at hx
      rcases List.mem_cons.mp hx with rfl | h'
      · exact List.mem_cons_self ..
      · exact List.mem_cons_of_mem y (ih x h')

theorem dropTrailWs_head (x : Char) (xs : Str) :
    dropTrailWs (x :: xs) = [] ∨ ∃ r, dropTrailWs (x :: xs) = x :: r := by
  simp only [dropTrailWs]
  by_cases he : (dropTrailWs xs).isEmpty
  · rw [if_pos he]
    by_cases hw : x.isWhitespace
    · rw [if_pos hw]; exact Or.inl rfl
    · rw [if_neg hw]; exact Or.inr ⟨[], rfl⟩
  · rw [if_neg he]; exact Or.inr ⟨dropTrailWs xs, rfl⟩

theorem dropTrailWs_idem (l : Str) : dropTrailWs (dropTrailWs l) = dropTrailWs l := by
  induction l with
  | nil => rfl
  | cons x xs ih =>
    simp only [dropTrailWs]
    by_cases he : (dropTrailWs xs).isEmpty
    · rw [if_pos he]
      by_cases hw : x.isWhitespace
      · rw [if_pos hw]; rfl
      · rw [if_neg hw]
        simp [dropTrailWs, hw]
    · rw [if_neg he]
      simp only [dropTrailWs, ih, if_neg he]

theorem dropTrailWs_cons_ne {x : Char} (r : Str) (hx : x.isWhitespace = false) :
    dropTrailWs (x :: r) ≠ [] := by
  simp only [dropTrailWs]
  by_cases he : (dropTrailWs r).isEmpty
  · rw [if_pos he, if_neg (by simp [hx])]
    simp
  · rw [if_neg he]
    simp

theorem dropTrailWs_map_toLower (l : Str) :
    dropTrailWs (jsToLower l) = jsToLower (dropTrailWs l) := by
  induction l with
  | nil => rfl
  | cons x xs ih =>
    show dropTrailWs (Char.toLower x :: jsToLower xs) =
      jsToLower (dropTrailWs (x :: xs))
    simp only [dropTrailWs, ih]
    by_cases he : (dropTrailWs xs).isEmpty
    · have he' : (jsToLower (dropTrailWs xs)).isEmpty := by
        cases hd : dropTrailWs xs
        · rfl
        · rw [hd] at he; exact absurd he (by simp)
      rw [if_pos he', if_pos he, isWhitespace_toLower]
      by_cases hw : x.isWhitespace
      · rw [if_pos hw, if_pos hw]; rfl
      · rw [if_neg hw, if_neg hw]; rfl
    · have he' : ¬(jsToLower (dropTrailWs xs)).isEmpty := by
        cases hd : dropTrailWs xs
        · rw [hd] at he; exact absurd rfl he
        · simp [jsToLower]
      rw [if_neg he', if_neg he]
      rfl

theorem dropWhile_ws_map_toLower (l : Str) :
    (jsToLower l).dropWhile Char.isWhitespace =
      jsToLower (l.dropWhile Char.isWhitespace) := by
  induction l with
  | nil => rfl
  | cons x xs ih =>
    show (Char.toLower x :: jsToLower xs).dropWhile Char.isWhitespace =
      jsToLower ((x :: xs).dropWhile Char.isWhitespace)
    by_cases hw : x.isWhitespace
    · rw [List.dropWhile_cons_of_pos (by rw [isWhitespace_toLower]; exact hw),
        List.dropWhile_cons_of_pos hw, ih]
    · rw [List.dropWhile_cons_of_neg
          (by rw [isWhitespace_toLower]; simpa using hw),
        List.dropWhile_cons_of_neg (by simpa using hw)]
      rfl

theorem jsTrim_map_toLower (l : Str) :
    jsTrim (jsToLower l) = jsToLower (jsTrim l) := by
  unfold jsTrim
  rw [dropWhile_ws_map_toLower, dropTrailWs_map_toLower]

theorem jsToLower_idem (l : Str) : jsToLower (jsToLower l) = jsToLower l := by
  unfold jsToLower
  rw [List.map_map]
  exact List.map_congr_left (fun c _ => toLower_toLower c)

theorem dropWhile_eq_self_of_head {p : Char → Bool} {z : Str}
    (h : z = [] ∨ ∃ x r, z = x :: r ∧ p x = false) : z.dropWhile p = z := by
  rcases h with rfl | ⟨x, r, rfl, hx⟩
  · rfl
  · rw [List.dropWhile_cons_of_neg (by simp [hx])]

theorem jsTrim_head (l : Str) :
    jsTrim l = [] ∨ ∃ x r, jsTrim l = x :: r ∧ x.isWhitespace = false := by
  unfold jsTrim
  cases hd : l.dropWhile Char.isWhitespace with
  | nil => exact Or.inl rfl
  | cons x r =>
    have hx : x.isWhitespace = false := by
      have := List.head?_dropWhile_not Char.isWhitespace l
      rw [hd] at this
      simpa using this
    rcases dropTrailWs_head x r with h1 | ⟨r', h2⟩
    · exact Or.inl h1
    · exact Or.inr ⟨x, r', h2, hx⟩

theorem jsTrim_idem (l : Str) : jsTrim (jsTrim l) = jsTrim l := by
  conv_lhs => rw [jsTrim]
  rw [dropWhile_eq_self_of_head (jsTrim_head l)]
  unfold jsTrim
  exact dropTrailWs_idem _

theorem jsTrim_sublist (l : Str) : ∀ x ∈ jsTrim l, x ∈ l := by
  intro x hx
  unfold jsTrim at hx
  exact (List.dropWhile_sublist Char.isWhitespace).mem (dropTrailWs_sublist _ x hx)

theorem jsTrim_eq_nil_of_all_ws (l : Str) (h : ∀ x ∈ l, x.isWhitespace = true) :
    jsTrim l = [] := by
  unfold jsTrim
  rw [List.dropWhile_eq_nil_iff.mpr (fun x hx => by simp [h x hx])]
  rfl

theorem jsTrim_ne_nil (l : Str) (x : Char) (hx : x ∈ l)
    (hw : x.isWhitespace = false) : jsTrim l ≠ [] := by
  unfold jsTrim
  cases hd : l.dropWhile Char.isWhitespace with
  | nil =>
    rw [List.dropWhile_eq_nil_iff] at hd
    have := hd x hx
    rw [hw] at this
    exact absurd this (by simp)
  | cons y r =>
    have hy : y.isWhitespace = false := by
      have := List.head?_dropWhile_not Char.isWhitespace l
      rw [hd] at this
      simpa using this
    exact dropTrailWs_cons_ne r hy

/-! Lemmas about `endsEqInt`, `isSignedInt` and `parseNameScore`. -/

theorem takeWhile_append_all {p : Char → Bool} (xs : Str) {y : Char} (r : Str)
    (hxs : ∀ x ∈ xs, p x = true) (hy : p y = false) :
    (xs ++ y :: r).takeWhile p = xs := by
  induction xs with
  | nil =>
    show (y :: r).takeWhile p = []
    rw [List.takeWhile_cons_of_neg (by simp [hy])]
  | cons z zs ih =>
    rw [List.cons_append,
      List.takeWhile_cons_of_pos (hxs z (List.mem_cons_self ..)),
      ih (fun x hx => hxs x (List.mem_cons_of_mem z hx))]

theorem dropWhile_append_all {p : Char → Bool} (xs : Str) {y : Char} (r : Str)
    (hxs : ∀ x ∈ xs, p x = true) (hy : p y = false) :
    (xs ++ y :: r).dropWhile p = y :: r := by
  induction xs with
  | nil =>
    show (y :: r).dropWhile p = y :: r
    rw [List.dropWhile_cons_of_neg (by simp [hy])]
  | cons z zs ih =>
    rw [List.cons_append,
      List.dropWhile_cons_of_pos (hxs z (List.mem_cons_self ..)),
      ih (fun x hx => hxs x (List.mem_cons_of_mem z hx))]

theorem isSignedInt_of_digits (s : Str) (hne : s ≠ [])
    (hd : ∀ x ∈ s, x.isDigit = true) : isSignedInt s = true := by
  unfold isSignedInt
  have hh : ¬(s.headD ' ' = '-') := by
    cases s with
    | nil => exact absurd rfl hne
    | cons c s' =>
      have hc := hd c (List.mem_cons_self ..)
      intro h
      rw [show (c :: s').headD ' ' = c from rfl] at h
      rw [h] at hc
      exact absurd hc (by decide)
  rw [if_neg hh]
  simp only [Bool.and_eq_true, Bool.not_eq_true', List.isEmpty_eq_false,
    List.all_eq_true]
  exact ⟨hne, fun x hx => hd x hx⟩

theorem isSignedInt_neg_digits (d : Str) (hne : d ≠ [])
    (hd : ∀ x ∈ d, x.isDigit = true) : isSignedInt ('-' :: d) = true := by
  unfold isSignedInt
  rw [if_pos (by rfl)]
  simp only [List.tail_cons, Bool.and_eq_true, Bool.not_eq_true',
    List.isEmpty_eq_false, List.all_eq_true]
  exact ⟨hne, fun x hx => hd x hx⟩

theorem mem_of_isSignedInt {s : Str} (hs : isSignedInt s = true) :
    ∀ x ∈ s, x = '-' ∨ x.isDigit = true := by
  unfold isSignedInt at hs
  by_cases hh : s.headD ' ' = '-'
  · rw [if_pos hh] at hs
    simp only [Bool.and_eq_true, Bool.not_eq_true', List.isEmpty_eq_false,
      List.all_eq_true] at hs
    intro x hx
    cases s with
    | nil => exact absurd hx (List.not_mem_nil x)
    | cons c s' =>
      rcases List.mem_cons.mp hx with rfl | hx'
      · exact Or.inl hh
      · exact Or.inr (hs.2 x hx')
  · rw [if_neg hh] at hs
    simp only [Bool.and_eq_true, Bool.not_eq_true', List.isEmpty_eq_false,
      List.all_eq_true] at hs
    exact fun x hx => Or.inr (hs.2 x hx)

theorem isSignedInt_ne_nil {s : Str} (hs : isSignedInt s = true) : s ≠ [] := by
  intro h
  subst h
  exact absurd hs (by decide)

theorem eqSign_not_mem_signedInt {s : Str} (hs : isSignedInt s = true) :
    '=' ∉ s := by
  intro hmem
  rcases mem_of_isSignedInt hs '=' hmem with h | h
  · exact absurd h (by decide)
  · exact absurd h (by decide)

theorem comma_not_mem_signedInt {s : Str} (hs : isSignedInt s = true) :
    ',' ∉ s := by
  intro hmem
  rcases mem_of_isSignedInt hs ',' hmem with h | h
  · exact absurd h (by decide)
  · exact absurd h (by decide)

theorem endsEqInt_iff (v : Str) :
    endsEqInt v = true ↔ ∃ a s, v = a ++ '=' :: s ∧ isSignedInt s = true := by
  constructor
  · intro h
    unfold endsEqInt at h
    simp only [Bool.and_eq_true, Bool.or_eq_true, Bool.not_eq_true',
      List.isEmpty_eq_false, decide_eq_true_eq] at h
    obtain ⟨hne, hrest⟩ := h
    have hd : ∀ x ∈ v.reverse.takeWhile Char.isDigit, x.isDigit = true :=
      fun x hx => List.mem_takeWhile_imp hx
    have hsplit := List.takeWhile_append_dropWhile Char.isDigit v.reverse
    rcases hrest with h1 | ⟨h1, h2⟩
    · obtain ⟨c, q, hq⟩ : ∃ c q, v.reverse.dropWhile Char.isDigit = c :: q := by
        cases hcq : v.reverse.dropWhile Char.isDigit with
        | nil =>
          rw [hcq] at h1
          exact absurd h1 (by decide)
        | cons c q => exact ⟨c, q, rfl⟩
      rw [hq] at h1
      rw [show (c :: q).headD ' ' = c from rfl] at h1
      subst h1
      rw [hq] at hsplit
      refine ⟨q.reverse, (v.reverse.takeWhile Char.isDigit).reverse, ?_, ?_⟩
      · have h3 := congrArg List.reverse hsplit
        rw [List.reverse_reverse] at h3
        conv_lhs => rw [← h3]
        simp
      · exact isSignedInt_of_digits _ (by simpa using hne)
          (fun x hx => hd x (List.mem_reverse.mp hx))
    · obtain ⟨c, q, hq⟩ : ∃ c q, v.reverse.dropWhile Char.isDigit = c :: q := by
        cases hcq : v.reverse.dropWhile Char.isDigit with
        | nil =>
          rw [hcq] at h1
          exact absurd h1 (by decide)
        | cons c q => exact ⟨c, q, rfl⟩
      rw [hq] at h1 h2
      rw [show (c :: q).headD ' ' = c from rfl] at h1
      subst h1
      obtain ⟨e, q', hq'⟩ : ∃ e q', q = e :: q' := by
        cases hcq : q with
        | nil =>
          rw [hcq] at h2
          exact absurd h2 (by decide)
        | cons e q' => exact ⟨e, q', rfl⟩
      rw [hq'] at h2 hq
      rw [show (('-' :: e :: q').tail).headD ' ' = e from rfl] at h2
      subst h2
      rw [hq] at hsplit
      refine ⟨q'.reverse, '-' :: (v.reverse.takeWhile Char.isDigit).reverse,
        ?_, ?_⟩
      · have h3 := congrArg List.reverse hsplit
        rw [List.reverse_reverse] at h3
        conv_lhs => rw [← h3]
        simp
      · exact isSignedInt_neg_digits _ (by simpa using hne)
          (fun x hx => hd x (List.mem_reverse.mp hx))
  · rintro ⟨a, s, rfl, hs⟩
    unfold endsEqInt
    unfold isSignedInt at hs
    by_cases hh : s.headD ' ' = '-'
    · rw [if_pos hh] at hs
      simp only [Bool.and_eq_true, Bool.not_eq_true', List.isEmpty_eq_false,
        List.all_eq_true] at hs
      obtain ⟨c, s', rfl⟩ : ∃ c s', s = c :: s' := by
        cases s with
        | nil => exact absurd hh (by decide)
        | cons c s' => exact ⟨c, s', rfl⟩
      rw [show (c :: s').headD ' ' = c from rfl] at hh
      subst hh
      simp only [List.tail_cons] at hs
      have hrev : (a ++ '=' :: '-' :: s').reverse =
          s'.reverse ++ '-' :: '=' :: a.reverse := by
        simp
      rw [hrev,
        takeWhile_append_all s'.reverse ('=' :: a.reverse)
          (fun x hx => hs.2 x (List.mem_reverse.mp hx)) (by decide),
        dropWhile_append_all s'.reverse ('=' :: a.reverse)
          (fun x hx => hs.2 x (List.mem_reverse.mp hx)) (by decide)]
      simp [hs.1]
    · rw [if_neg hh] at hs
      simp only [Bool.and_eq_true, Bool.not_eq_true', List.isEmpty_eq_false,
        List.all_eq_true] at hs
      have hrev : (a ++ '=' :: s).reverse = s.reverse ++ '=' :: a.reverse := by
        simp
      rw [hrev,
        takeWhile_append_all s.reverse a.reverse
          (fun x hx => hs.2 x (List.mem_reverse.mp hx)) (by decide),
        dropWhile_append_all s.reverse a.reverse
          (fun x hx => hs.2 x (List.mem_reverse.mp hx)) (by decide)]
      simp [hs.1]

theorem parseNameScore_concat (a s : Str) (hs : isSignedInt s = true) :
    parseNameScore (a ++ '=' :: s) = (a, s) := by
  have he : endsEqInt (a ++ '=' :: s) = true :=
    (endsEqInt_iff _).mpr ⟨a, s, rfl, hs⟩
  unfold parseNameScore
  rw [if_pos he, jsSplit_concat '=' a s (eqSign_not_mem_signedInt hs),
    List.dropLast_concat, List.getLastD_concat, jsJoin_jsSplit]

theorem parseNameScore_of_not_endsEqInt (v : Str) (h : endsEqInt v = false) :
    parseNameScore v = (v, ['1']) := by
  unfold parseNameScore
  rw [if_neg (by simp [h])]

theorem parseNameScore_snd_signedInt (v : Str) :
    isSignedInt (parseNameScore v).2 = true := by
  by_cases he : endsEqInt v = true
  · obtain ⟨a, s, rfl, hs⟩ := (endsEqInt_iff v).mp he
    rw [parseNameScore_concat a s hs]
    exact hs
  · rw [parseNameScore_of_not_endsEqInt v (by simpa using he)]
    show isSignedInt ['1'] = true
    decide

/-! Lemmas about `sanitizePersonalityOption`. -/

theorem parseNameScore_fst_mem (t : Str) :
    ∀ x ∈ (parseNameScore t).1, x = '=' ∨ x ∈ t := by
  unfold parseNameScore
  by_cases he : endsEqInt t = true
  · rw [if_pos he]
    intro x hx
    rcases mem_jsJoin '=' (jsSplit '=' t).dropLast x hx with h1 | ⟨piece, hp, hxp⟩
    · exact Or.inl h1
    · exact Or.inr (mem_of_mem_jsSplit '=' t piece
        ((List.dropLast_sublist _).mem hp) x hxp)
  · rw [if_neg he]
    exact fun x hx => Or.inr hx

theorem comma_not_mem_sanitized {ps : List Personality} {t u : Str}
    (ht : ',' ∉ t) (h : sanitizePersonalityOption ps t = some u) : ',' ∉ u := by
  unfold sanitizePersonalityOption at h
  by_cases hv : isPersonalityNameValid ps (jsToLower (jsTrim (parseNameScore t).1)) = true
  · rw [if_pos hv] at h
    injection h with h
    subst h
    intro hmem
    rcases List.mem_append.mp hmem with h1 | h2
    · obtain ⟨c, hc, hlc⟩ := List.mem_map.mp h1
      have hcc : c = ',' := by
        by_contra hne
        exact toLower_ne_comma hne hlc
      rw [hcc] at hc
      rcases parseNameScore_fst_mem t ',' (jsTrim_sublist _ ',' hc) with h3 | h3
      · exact absurd h3 (by decide)
      · exact ht h3
    · rcases List.mem_cons.mp h2 with h3 | h3
      · exact absurd h3 (by decide)
      · exact comma_not_mem_signedInt (parseNameScore_snd_signedInt t) h3
  · rw [if_neg hv] at h
    exact absurd h (by simp)

theorem sanitizePersonalityOption_stable (ps : List Personality) (v u : Str)
    (h : sanitizePersonalityOption ps v = some u) :
    sanitizePersonalityOption ps u = some u := by
  unfold sanitizePersonalityOption at h
  by_cases hv : isPersonalityNameValid ps (jsToLower (jsTrim (parseNameScore v).1)) = true
  · rw [if_pos hv] at h
    injection h with h
    subst h
    have hp := parseNameScore_concat (jsToLower (jsTrim (parseNameScore v).1))
      (parseNameScore v).2 (parseNameScore_snd_signedInt v)
    unfold sanitizePersonalityOption
    rw [hp]
    have hname : jsToLower (jsTrim (jsToLower (jsTrim (parseNameScore v).1))) =
        jsToLower (jsTrim (parseNameScore v).1) := by
      rw [jsTrim_map_toLower, jsTrim_idem, jsToLower_idem]
    rw [show (jsToLower (jsTrim (parseNameScore v).1), (parseNameScore v).2).1 =
        jsToLower (jsTrim (parseNameScore v).1) from rfl,
      show (jsToLower (jsTrim (parseNameScore v).1), (parseNameScore v).2).2 =
        (parseNameScore v).2 from rfl,
      hname, if_pos hv]
  · rw [if_neg hv] at h
    exact absurd h (by simp)

theorem filterMap_of_forall_some {α : Type} {f : α → Option α} :
    ∀ l : List α, (∀ x ∈ l, f x = some x) → l.filterMap f = l := by
  intro l
  induction l with
  | nil => intro _; rfl
  | cons x xs ih =>
    intro h
    rw [List.filterMap_cons, h x (List.mem_cons_self ..),
      ih (fun y hy => h y (List.mem_cons_of_mem x hy))]

theorem sanitizeOptionPersonalities_some (ps : List Personality) (s : Str) :
    sanitizeOptionPersonalities ps (some s) =
      jsJoin ',' ((jsSplit ',' s).filterMap (sanitizePersonalityOption ps)) := by
  show jsJoin ','
      (((jsSplit ',' s).map (sanitizePersonalityOption ps)).filterMap id) =
    jsJoin ',' ((jsSplit ',' s).filterMap (sanitizePersonalityOption ps))
  rw [List.filterMap_map]
  rfl

theorem isPersonalityNameValid_nil_eq_false (ps : List Personality)
    (hps : ∀ p ∈ ps, p.name ≠ []) : isPersonalityNameValid ps [] = false := by
  rw [← Bool.not_eq_true, isPersonalityNameValid, List.any_eq_true]
  rintro ⟨p, hp, hbeq⟩
  have h1 : jsToLower p.name = [] := by simpa using hbeq
  exact hps p hp (by simpa [jsToLower] using h1)

theorem sanitizePersonalityOption_nil (ps : List Personality)
    (hps : ∀ p ∈ ps, p.name ≠ []) : sanitizePersonalityOption ps [] = none := by
  unfold sanitizePersonalityOption
  rw [if_neg]
  intro hv
  have h1 : (parseNameScore []).1 = [] := by decide
  rw [h1] at hv
  have h2 : jsToLower (jsTrim []) = [] := by decide
  rw [h2] at hv
  rw [isPersonalityNameValid_nil_eq_false ps hps] at hv
  exact absurd hv (by simp)

/-! Lemmas about the personalities pass. -/

theorem personalityStep_eq (acc : List Personality) (p : RawPersonality) :
    personalityStep acc p =
      match p.name with
      | none => acc
      | some n =>
        if n.isEmpty then acc
        else if acc.any (fun result => result.name == jsTrim n) then acc
        else acc ++ [⟨jsTrim n, p.payload⟩] := rfl

theorem personalityStep_none {p : RawPersonality} (acc : List Personality)
    (hn : p.name = none) : personalityStep acc p = acc := by
  rw [personalityStep_eq, hn]

theorem personalityStep_some {p : RawPersonality} {n : Str}
    (acc : List Personality) (hn : p.name = some n) :
    personalityStep acc p =
      if n.isEmpty then acc
      else if acc.any (fun result => result.name == jsTrim n) then acc
      else acc ++ [⟨jsTrim n, p.payload⟩] := by
  rw [personalityStep_eq, hn]

theorem specGo_cons (p : RawPersonality) (rest : List RawPersonality)
    (acc : List Personality) :
    sanitizePersonalitiesSpecGo (p :: rest) acc =
      match p.name with
      | none => sanitizePersonalitiesSpecGo rest acc
      | some n =>
        if n = [] then sanitizePersonalitiesSpecGo rest acc
        else if jsTrim n ∈ acc.map Personality.name then
          sanitizePersonalitiesSpecGo rest acc
        else sanitizePersonalitiesSpecGo rest (acc ++ [⟨jsTrim n, p.payload⟩]) :=
  rfl

theorem beq_any_name_iff (results : List Personality) (t : Str) :
    results.any (fun result => result.name == t) = true ↔
      t ∈ results.map Personality.name := by
  rw [List.any_eq_true]
  constructor
  · rintro ⟨p, hp, hbeq⟩
    exact List.mem_map.mpr ⟨p, hp, by simpa using hbeq⟩
  · intro hmem
    obtain ⟨p, hp, hname⟩ := List.mem_map.mp hmem
    exact ⟨p, hp, by simp [hname]⟩

theorem specGo_cons_none {p : RawPersonality} (rest : List RawPersonality)
    (acc : List Personality) (hn : p.name = none) :
    sanitizePersonalitiesSpecGo (p :: rest) acc =
      sanitizePersonalitiesSpecGo rest acc := by
  rw [specGo_cons, hn]

theorem specGo_cons_some {p : RawPersonality} {n : Str}
    (rest : List RawPersonality) (acc : List Personality) (hn : p.name = some n) :
    sanitizePersonalitiesSpecGo (p :: rest) acc =
      if n = [] then sanitizePersonalitiesSpecGo rest acc
      else if jsTrim n ∈ acc.map Personality.name then
        sanitizePersonalitiesSpecGo rest acc
      else sanitizePersonalitiesSpecGo rest (acc ++ [⟨jsTrim n, p.payload⟩]) := by
  rw [specGo_cons, hn]

theorem foldl_personalityStep_eq_specGo (raw : List RawPersonality) :
    ∀ acc : List Personality,
      raw.foldl personalityStep acc = sanitizePersonalitiesSpecGo raw acc := by
  induction raw with
  | nil => intro acc; rfl
  | cons p rest ih =>
    intro acc
    rw [List.foldl_cons, ih (personalityStep acc p)]
    cases hn : p.name with
    | none => rw [personalityStep_none acc hn, specGo_cons_none rest acc hn]
    | some n =>
      rw [personalityStep_some acc hn, specGo_cons_some rest acc hn]
      by_cases hne : n.isEmpty = true
      · rw [if_pos hne, if_pos (List.isEmpty_eq_true.mp hne)]
      · rw [if_neg hne, if_neg (fun h => hne (List.isEmpty_eq_true.mpr h))]
        by_cases hdup : (acc.any (fun result => result.name == jsTrim n)) = true
        · rw [if_pos hdup, if_pos ((beq_any_name_iff acc (jsTrim n)).mp hdup)]
        · rw [if_neg hdup,
            if_neg (fun h => hdup ((beq_any_name_iff acc (jsTrim n)).mpr h))]

theorem mem_foldl_personalityStep (raw : List RawPersonality) :
    ∀ (acc : List Personality) (x : Personality), x ∈ acc →
      x ∈ raw.foldl personalityStep acc := by
  induction raw with
  | nil => intro acc x hx; exact hx
  | cons p rest ih =>
    intro acc x hx
    rw [List.foldl_cons]
    apply ih
    cases hn : p.name with
    | none => rw [personalityStep_none acc hn]; exact hx
    | some n =>
      rw [personalityStep_some acc hn]
      by_cases hne : n.isEmpty = true
      · rw [if_pos hne]; exact hx
      · rw [if_neg hne]
        by_cases hdup : (acc.any (fun result => result.name == jsTrim n)) = true
        · rw [if_pos hdup]; exact hx
        · rw [if_neg hdup]; exact List.mem_append_left _ hx

theorem name_ne_nil_foldl (raw : List RawPersonality)
    (hraw : ∀ q ∈ raw, wsOnlyName q = false) :
    ∀ acc : List Personality, (∀ q ∈ acc, q.name ≠ []) →
      ∀ q ∈ raw.foldl personalityStep acc, q.name ≠ [] := by
  induction raw with
  | nil => intro acc hacc q hq; exact hacc q hq
  | cons p rest ih =>
    intro acc hacc q hq
    rw [List.foldl_cons] at hq
    refine ih (fun r hr => hraw r (List.mem_cons_of_mem p hr)) _ ?_ q hq
    intro r hr
    cases hn : p.name with
    | none => rw [personalityStep_none acc hn] at hr; exact hacc r hr
    | some n =>
      rw [personalityStep_some acc hn] at hr
      by_cases hne : n.isEmpty = true
      · rw [if_pos hne] at hr; exact hacc r hr
      · rw [if_neg hne] at hr
        by_cases hdup : (acc.any (fun result => result.name == jsTrim n)) = true
        · rw [if_pos hdup] at hr; exact hacc r hr
        · rw [if_neg hdup] at hr
          rcases List.mem_append.mp hr with h1 | h2
          · exact hacc r h1
          · have hr2 : r = ⟨jsTrim n, p.payload⟩ := by simpa using h2
            subst hr2
            have hwp := hraw p (List.mem_cons_self ..)
            unfold wsOnlyName at hwp
            rw [hn] at hwp
            simp only [Bool.and_eq_false_iff, Bool.not_eq_false,
              List.all_eq_true] at hwp
            rcases hwp with h3 | h3
            · exact absurd (by simpa using h3) hne
            · obtain ⟨x, hx, hxw⟩ := List.all_eq_false.mp h3
              exact jsTrim_ne_nil n x hx (by simpa using hxw)

theorem names_nodup_foldl (raw : List RawPersonality) :
    ∀ acc : List Personality, (acc.map Personality.name).Nodup →
      ((raw.foldl personalityStep acc).map Personality.name).Nodup := by
  induction raw with
  | nil => intro acc hacc; exact hacc
  | cons p rest ih =>
    intro acc hacc
    rw [List.foldl_cons]
    apply ih
    cases hn : p.name with
    | none => rw [personalityStep_none acc hn]; exact hacc
    | some n =>
      rw [personalityStep_some acc hn]
      by_cases hne : n.isEmpty = true
      · rw [if_pos hne]; exact hacc
      · rw [if_neg hne]
        by_cases hdup : (acc.any (fun result => result.name == jsTrim n)) = true
        · rw [if_pos hdup]; exact hacc
        · rw [if_neg hdup]
          rw [List.map_append, List.nodup_append]
          refine ⟨hacc, by simp, ?_⟩
          intro x hx hx2
          have hxx : x = jsTrim n := by simpa using hx2
          subst hxx
          exact hdup ((beq_any_name_iff acc (jsTrim n)).mpr hx)

/-! Lemmas about `filterAnswers` and `sanitizeQuestions`. -/

theorem map_bne_nil {α β : Type} [BEq α] [BEq β] (g : α → β) (l : List α) :
    (List.map g l != []) = (l != []) := by
  cases l <;> rfl

theorem filterAnswers_eq (ps : List Personality) (answers : List RawAnswer) :
    filterAnswers ps answers =
      (answers.filter
        (fun a => sanitizeOptionPersonalities ps a.personality != [])).map
        (fun a => ⟨a.text, sanitizeOptionPersonalities ps a.personality⟩) := by
  induction answers with
  | nil => rfl
  | cons a rest ih =>
    unfold filterAnswers at ih ⊢
    rw [List.map_cons, List.filter_cons, List.filter_cons]
    by_cases hc : (sanitizeOptionPersonalities ps a.personality != []) = true
    · rw [if_pos hc, if_pos hc, List.map_cons, ih]
    · rw [if_neg hc, if_neg hc, ih]

theorem sanitizeQuestions_eq (ps : List Personality) (qs : List RawQuestion) :
    sanitizeQuestions ps qs =
      (qs.filter (fun q => filterAnswers ps q.answers != [])).map
        (fun q => ⟨(filterAnswers ps q.answers).map
          (fun o => ⟨o.text.getD placeholderText, o.personality⟩)⟩) := by
  induction qs with
  | nil => rfl
  | cons q rest ih =>
    unfold sanitizeQuestions at ih ⊢
    by_cases hc : filterAnswers ps q.answers = []
    · simp only [List.map_cons, List.filter_cons, hc, List.map_nil]
      simpa using ih
    · simp only [List.map_cons, List.filter_cons]
      rw [map_bne_nil]
      rw [if_pos (by simpa using hc), if_pos (by simpa using hc), List.map_cons,
        ih]

theorem filter_questions_nil (ps : List Personality) (qs : List RawQuestion)
    (h : ∀ q ∈ qs, ∀ a ∈ q.answers,
      sanitizeOptionPersonalities ps a.personality = []) :
    qs.filter (fun q => filterAnswers ps q.answers != []) = [] := by
  rw [List.filter_eq_nil_iff]
  intro q hq
  have hfa : filterAnswers ps q.answers = [] := by
    rw [filterAnswers_eq]
    have hf : q.answers.filter
        (fun a => sanitizeOptionPersonalities ps a.personality != []) = [] := by
      rw [List.filter_eq_nil_iff]
      intro a ha
      simp [h q hq a ha]
    rw [hf]
    rfl
  simp [hfa]

theorem mem_filterAnswers_personality_ne (ps : List Personality)
    (answers : List RawAnswer) (a : MidAnswer) (h : a ∈ filterAnswers ps answers) :
    a.personality ≠ [] := by
  unfold filterAnswers at h
  simpa using List.of_mem_filter h

/-! The claims. -/

/-- C1: for every input list of personality records, the sanitizer's
personality pass iterates them in given order, skips entries whose name is
missing or empty, trims whitespace from the name, and drops an entry when a
personality with the same trimmed name (compared case-sensitively) already
exists in the accumulated result, so the first occurrence wins and the
surviving display name is the trimmed authored name, not lower-cased: the
source pass coincides with the specification-worded pass
`sanitizePersonalitiesSpec`. -/
theorem claim_C1 (raw : List RawPersonality) :
    sanitizePersonalities raw = sanitizePersonalitiesSpec raw :=
  foldl_personalityStep_eq_specGo raw []

/-- C2: a token that ends in `=` followed by an optionally negative integer
is split at the last `=` (the trailing part is the score, everything before
it the name); any other token, including one with a malformed non-numeric
trailing expression, is taken whole as the name with score `1`. -/
theorem claim_C2 :
    (∀ a s : Str, isSignedInt s = true →
      parseNameScore (a ++ '=' :: s) = (a, s)) ∧
    (∀ v : Str, (¬ ∃ a s, v = a ++ '=' :: s ∧ isSignedInt s = true) →
      parseNameScore v = (v, ['1'])) := by
  constructor
  · exact fun a s hs => parseNameScore_concat a s hs
  · intro v hv
    apply parseNameScore_of_not_endsEqInt
    have hne : ¬(endsEqInt v = true) := fun he => hv ((endsEqInt_iff v).mp he)
    simpa using hne

/-- Witness for C2 at the tokens `brave=2` and `b=x`. -/
theorem claim_C2_witness :
    parseNameScore (braveChars ++ '=' :: ['2']) = (braveChars, ['2']) ∧
    parseNameScore ['b', '=', 'x'] = (['b', '=', 'x'], ['1']) :=
  ⟨claim_C2.1 braveChars ['2'] (by decide),
   claim_C2.2 ['b', '=', 'x']
     (fun hex => absurd ((endsEqInt_iff _).mpr hex) (by decide))⟩

/-- C3: `sanitizePersonalityOption` returns `none` exactly when the token's
trimmed, lower-cased name does not case-insensitively match any sanitized
personality's name, and otherwise returns the canonical `name=score` with
the name lower-cased; with known personality `brave`, `brave=2` maps to
`brave=2`, `Brave` maps to `brave=1`, and `unknown=3` maps to `none`. -/
theorem claim_C3 :
    (∀ (ps : List Personality) (v : Str),
      (sanitizePersonalityOption ps v = none ↔
        ¬ ∃ p ∈ ps, jsToLower p.name =
          jsToLower (jsToLower (jsTrim (parseNameScore v).1)))) ∧
    (∀ (ps : List Personality) (v : Str),
      sanitizePersonalityOption ps v = none ∨
      sanitizePersonalityOption ps v =
        some (jsToLower (jsTrim (parseNameScore v).1) ++ '=' ::
          (parseNameScore v).2)) ∧
    sanitizePersonalityOption bravePersonalities braveTwoTok =
      some braveTwoTok ∧
    sanitizePersonalityOption bravePersonalities braveUpper =
      some braveOneTok ∧
    sanitizePersonalityOption bravePersonalities unknownThreeTok = none := by
  refine ⟨?_, ?_, by decide, by decide, by decide⟩
  · intro ps v
    unfold sanitizePersonalityOption
    by_cases hv : isPersonalityNameValid ps
        (jsToLower (jsTrim (parseNameScore v).1)) = true
    · rw [if_pos hv]
      constructor
      · intro h
        exact absurd h (by simp)
      · intro hno
        exfalso
        apply hno
        rw [isPersonalityNameValid, List.any_eq_true] at hv
        obtain ⟨p, hp, hbeq⟩ := hv
        refine ⟨p, hp, ?_⟩
        rw [show jsToLower p.name = jsToLower (jsTrim (parseNameScore v).1)
          from by simpa using hbeq, jsToLower_idem]
    · rw [if_neg hv]
      constructor
      · intro _
        rintro ⟨p, hp, heq⟩
        apply hv
        rw [isPersonalityNameValid, List.any_eq_true]
        refine ⟨p, hp, ?_⟩
        rw [beq_iff_eq, heq, jsToLower_idem]
      · intro _
        rfl
  · intro ps v
    unfold sanitizePersonalityOption
    by_cases hv : isPersonalityNameValid ps
        (jsToLower (jsTrim (parseNameScore v).1)) = true
    · rw [if_pos hv]
      exact Or.inr rfl
    · rw [if_neg hv]
      exact Or.inl rfl

/-- C4: an answer option is discarded exactly when its sanitized
personality string is empty, a question is discarded exactly when it has
zero surviving answer options, and a question all of whose answers sanitize
to zero valid tokens is dropped entirely. -/
theorem claim_C4 :
    (∀ (ps : List Personality) (answers : List RawAnswer),
      filterAnswers ps answers =
        (answers.filter
          (fun a => sanitizeOptionPersonalities ps a.personality != [])).map
          (fun a => ⟨a.text, sanitizeOptionPersonalities ps a.personality⟩)) ∧
    (∀ (ps : List Personality) (qs : List RawQuestion),
      sanitizeQuestions ps qs =
        (qs.filter (fun q => filterAnswers ps q.answers != [])).map
          (fun q => ⟨(filterAnswers ps q.answers).map
            (fun o => ⟨o.text.getD placeholderText, o.personality⟩)⟩)) ∧
    (∀ (ps : List Personality) (qs : List RawQuestion),
      (∀ q ∈ qs, ∀ a ∈ q.answers,
        sanitizeOptionPersonalities ps a.personality = []) →
      sanitizeQuestions ps qs = []) :=
  ⟨filterAnswers_eq, sanitizeQuestions_eq, fun ps qs h => by
    rw [sanitizeQuestions_eq, filter_questions_nil ps qs h]
    rfl⟩

/-- Witness for C4: a question whose single answer has no valid personality
token is dropped entirely. -/
theorem claim_C4_witness :
    sanitizeQuestions bravePersonalities [⟨[⟨none, some ['x']⟩]⟩] = [] :=
  claim_C4.2.2 bravePersonalities [⟨[⟨none, some ['x']⟩]⟩] (by decide)

/-- Counterexample to C5: the dedup key is case-sensitive, so `Brave` and
`brave` both survive although their trimmed names are equal
case-insensitively. -/
theorem claim_C5_counterexample :
    sanitizePersonalities [⟨some braveUpper, 0⟩, ⟨some braveChars, 1⟩] =
      [⟨braveUpper, 0⟩, ⟨braveChars, 1⟩] ∧
    jsToLower (jsTrim braveUpper) = jsToLower (jsTrim braveChars) ∧
    braveUpper ≠ braveChars := by decide

/-- C5 (amended): after sanitization no two surviving personalities have
equal trimmed names under case-SENSITIVE comparison; case-insensitive
duplicates may both survive. -/
theorem claim_C5 (raw : List RawPersonality) :
    ((sanitizePersonalities raw).map Personality.name).Nodup :=
  names_nodup_foldl raw [] (by simp)

/-- Counterexample to C6: an answer whose authored text is the empty string
(not missing) survives with empty text; only nullish text is replaced by
the placeholder. -/
theorem claim_C6_counterexample :
    sanitizeQuestions bravePersonalities [⟨[⟨some [], some braveChars⟩]⟩] =
      [⟨[⟨[], braveOneTok⟩]⟩] ∧
    placeholderText ≠ [] := by decide

/-- C6 (amended): missing (nullish) answer text is replaced by the
non-empty invisible placeholder, so when no author entered an empty-string
text every surviving answer option's text is non-empty; an authored empty
string, however, is kept as-is. -/
theorem claim_C6 (ps : List Personality) (qs : List RawQuestion)
    (h : ∀ q ∈ qs, ∀ a ∈ q.answers, a.text ≠ some []) :
    ∀ q' ∈ sanitizeQuestions ps qs, ∀ a' ∈ q'.answers, a'.text ≠ [] := by
  intro q' hq' a' ha'
  rw [sanitizeQuestions_eq] at hq'
  obtain ⟨q, hqf, rfl⟩ := List.mem_map.mp hq'
  have hq := List.mem_of_mem_filter hqf
  obtain ⟨mid, hmid, rfl⟩ := List.mem_map.mp ha'
  rw [filterAnswers_eq] at hmid
  obtain ⟨raw, hrawf, rfl⟩ := List.mem_map.mp hmid
  have hraw := List.mem_of_mem_filter hrawf
  show raw.text.getD placeholderText ≠ []
  cases hrt : raw.text with
  | none => decide
  | some t =>
    intro hnil
    exact h q hq raw hraw
      (by rw [hrt]; exact congrArg some (by simpa using hnil))

/-- Witness for C6 (amended) at a question whose answer text is missing. -/
theorem claim_C6_witness :
    (Answer.mk placeholderText braveOneTok).text ≠ [] :=
  claim_C6 bravePersonalities [⟨[⟨none, some braveChars⟩]⟩] (by decide)
    ⟨[⟨placeholderText, braveOneTok⟩]⟩ (by decide)
    ⟨placeholderText, braveOneTok⟩ (by decide)

/-- C7: duplicate personality tokens within one answer string are not
deduplicated: the sanitized string is the join of the per-token results in
input order, one output occurrence per valid input occurrence. -/
theorem claim_C7 (ps : List Personality) (tokens : List Str)
    (hne : tokens ≠ []) (hc : ∀ t ∈ tokens, ',' ∉ t) :
    sanitizeOptionPersonalities ps (some (jsJoin ',' tokens)) =
      jsJoin ',' (tokens.filterMap (sanitizePersonalityOption ps)) := by
  rw [sanitizeOptionPersonalities_some, jsSplit_jsJoin ',' tokens hne hc]

/-- Witness for C7: the token `brave=2` twice survives twice. -/
theorem claim_C7_witness :
    sanitizeOptionPersonalities bravePersonalities
      (some (jsJoin ',' [braveTwoTok, braveTwoTok])) =
    jsJoin ',' ([braveTwoTok, braveTwoTok].filterMap
      (sanitizePersonalityOption bravePersonalities)) :=
  claim_C7 bravePersonalities [braveTwoTok, braveTwoTok] (by decide) (by decide)

/-- C8: `sanitizeOptionPersonalities` is a total function that maps a
non-string (`none`) personality field to the empty string, and the
subsequent filter keeps only answers with a non-empty sanitized string, so
such an answer is dropped rather than failing. -/
theorem claim_C8 :
    (∀ ps : List Personality, sanitizeOptionPersonalities ps none = []) ∧
    (∀ (ps : List Personality) (answers : List RawAnswer) (a : MidAnswer),
      a ∈ filterAnswers ps answers → a.personality ≠ []) :=
  ⟨fun _ => rfl, mem_filterAnswers_personality_ne⟩

/-- Witness for C8 at the personality list `[brave]`. -/
theorem claim_C8_witness :
    sanitizeOptionPersonalities bravePersonalities none = [] ∧
    (MidAnswer.mk none braveOneTok).personality ≠ [] :=
  ⟨claim_C8.1 bravePersonalities,
   claim_C8.2 bravePersonalities [⟨none, some braveChars⟩]
     ⟨none, braveOneTok⟩ (by decide)⟩

/-- C9: a record whose name is non-empty but all whitespace is not skipped
(the falsy check runs before trimming); the first such record survives with
its name trimmed to the empty string. -/
theorem claim_C9 (l₁ : List RawPersonality) (p : RawPersonality)
    (l₂ : List RawPersonality) (h1 : ∀ q ∈ l₁, wsOnlyName q = false)
    (hp : wsOnlyName p = true) :
    Personality.mk [] p.payload ∈ sanitizePersonalities (l₁ ++ p :: l₂) := by
  unfold sanitizePersonalities
  rw [List.foldl_append, List.foldl_cons]
  apply mem_foldl_personalityStep
  cases hn : p.name with
  | none =>
    unfold wsOnlyName at hp
    rw [hn] at hp
    exact absurd hp (by decide)
  | some n =>
    unfold wsOnlyName at hp
    rw [hn] at hp
    have hp' : (!n.isEmpty && n.all Char.isWhitespace) = true := hp
    simp only [Bool.and_eq_true, Bool.not_eq_true', List.isEmpty_eq_false,
      List.all_eq_true] at hp'
    obtain ⟨hne, hws⟩ := hp'
    rw [personalityStep_some _ hn]
    have htrim : jsTrim n = [] :=
      jsTrim_eq_nil_of_all_ws n (fun x hx => by simpa using hws x hx)
    rw [if_neg (by simpa using hne)]
    have hnil : ∀ q ∈ List.foldl personalityStep [] l₁, q.name ≠ [] :=
      name_ne_nil_foldl l₁ h1 [] (by simp)
    have hany : ((List.foldl personalityStep [] l₁).any
        (fun result => result.name == jsTrim n)) = false := by
      rw [← Bool.not_eq_true, List.any_eq_true]
      rintro ⟨r, hr, hbeq⟩
      rw [htrim] at hbeq
      exact hnil r hr (by simpa using hbeq)
    rw [if_neg (by simp [hany])]
    rw [htrim]
    exact List.mem_append_right _ (List.mem_cons_self ..)

/-- Witness for C9: the whitespace-only name `"  "` survives as the empty
name with its payload. -/
theorem claim_C9_witness :
    Personality.mk [] 7 ∈
      sanitizePersonalities [⟨some braveUpper, 0⟩, ⟨some [' ', ' '], 7⟩] :=
  claim_C9 [⟨some braveUpper, 0⟩] ⟨some [' ', ' '], 7⟩ [] (by decide) (by decide)

/-- Counterexample to C10: with the sanitized personality list produced
from a whitespace-only name (a single personality whose name is the empty
string), `sanitizeOptionPersonalities` is not idempotent: the token `x` is
invalid, so the first pass yields the empty string, but re-sanitizing the
empty string yields the token `=1`. -/
theorem claim_C10_counterexample :
    sanitizePersonalities [⟨some [' '], 0⟩] = [⟨[], 0⟩] ∧
    sanitizeOptionPersonalities [⟨[], 0⟩]
        (some (sanitizeOptionPersonalities [⟨[], 0⟩] (some ['x']))) ≠
      sanitizeOptionPersonalities [⟨[], 0⟩] (some ['x']) := by decide

/-- C10 (amended): for every sanitized personality list in which no
personality has the empty name, `sanitizeOptionPersonalities` is idempotent
on strings: its canonical outputs are fixed points. -/
theorem claim_C10 (ps : List Personality) (hps : ∀ p ∈ ps, p.name ≠ [])
    (s : Str) :
    sanitizeOptionPersonalities ps
        (some (sanitizeOptionPersonalities ps (some s))) =
      sanitizeOptionPersonalities ps (some s) := by
  rw [sanitizeOptionPersonalities_some ps s]
  have hmem : ∀ u ∈ (jsSplit ',' s).filterMap (sanitizePersonalityOption ps),
      sanitizePersonalityOption ps u = some u := by
    intro u hu
    obtain ⟨t, _, hsan⟩ := List.mem_filterMap.mp hu
    exact sanitizePersonalityOption_stable ps t u hsan
  have hcomma : ∀ u ∈ (jsSplit ',' s).filterMap (sanitizePersonalityOption ps),
      ',' ∉ u := by
    intro u hu
    obtain ⟨t, ht, hsan⟩ := List.mem_filterMap.mp hu
    exact comma_not_mem_sanitized (not_mem_of_mem_jsSplit ',' s t ht) hsan
  cases hout : (jsSplit ',' s).filterMap (sanitizePersonalityOption ps) with
  | nil =>
    show sanitizeOptionPersonalities ps (some (jsJoin ',' [])) = jsJoin ',' []
    rw [show jsJoin ',' ([] : List (List Char)) = [] from rfl,
      sanitizeOptionPersonalities_some,
      show jsSplit ',' ([] : Str) = [[]] from rfl,
      List.filterMap_cons, sanitizePersonalityOption_nil ps hps]
    rfl
  | cons u us =>
    rw [hout] at hmem hcomma
    show sanitizeOptionPersonalities ps (some (jsJoin ',' (u :: us))) =
      jsJoin ',' (u :: us)
    rw [sanitizeOptionPersonalities_some,
      jsSplit_jsJoin ',' (u :: us) (by simp) hcomma,
      filterMap_of_forall_some (u :: us) hmem]

/-- Witness for C10 (amended) at the personality list `[brave]`. -/
theorem claim_C10_witness :
    sanitizeOptionPersonalities bravePersonalities
        (some (sanitizeOptionPersonalities bravePersonalities (some ['x']))) =
      sanitizeOptionPersonalities bravePersonalities (some ['x']) :=
  claim_C10 bravePersonalities (by decide) ['x']

end PersonalityQuiz
